import Mathlib

/-!
# Verification of the `sseq` bidegree scheduler and graded-algebra defaults

This file gives a shallow embedding of two pieces of the `ext` crate:

* `iter_s_t` and its inner recursion `run` (`src/ext/src/utils.rs`), the
  dependency-respecting parallel scheduler over bidegrees `(s, t)`.  The
  rayon-based concurrency is modelled by a small-step relation: a state holds
  the multiset of spawned-but-not-yet-executed tasks and the trace of calls to
  `f` made so far (each call recorded together with the range it returned).
  Any pending task may fire at any time, and the range returned by `f` is
  chosen nondeterministically at each step; the documented contract on `f`'s
  return value is a separate predicate `Valid` on traces.

* The provided (default) methods of the `Algebra` trait
  (`src/ext/crates/algebra/src/algebra/algebra_trait.rs`):
  `multiply_basis_element_by_element`, `multiply_element_by_basis_element`,
  `multiply_element_by_element` and `element_to_string`.  These are generic
  over the implementor's `multiply_basis_elements`, which we model by taking
  the state type and the multiplication callback as parameters.
-/

namespace Sseq

/-! ## The scheduler `iter_s_t` (src/ext/src/utils.rs, lines 327-375) -/

/-- A unit of work: the pair `(s, t)` passed to `run`. -/
abbrev Task := Nat × Int

/-- One recorded call to `f`: the arguments `(s, t)` and the returned range
`rS..rE` (Rust `std::ops::Range<i32>`). -/
structure Event where
  s : Nat
  t : Int
  rS : Int
  rE : Int
  deriving DecidableEq, Repr

/-- The parameters of `iter_s_t`: `min_s`, `min_t`, `max_s` (exclusive) and
the per-`s` exclusive bound `max_t`. -/
structure SchedParams where
  min_s : Nat
  min_t : Int
  max_s : Nat
  max_t : Nat → Int

/-- The tasks of level `s` with internal degree in the half-open interval
`lo..hi` (the Rust iteration `(lo..hi).into_par_iter()`). -/
def intRangeTasks (s : Nat) (lo hi : Int) : List Task :=
  (List.range (hi - lo).toNat).map (fun k : Nat => (s, lo + (k : Int)))

/-- The tasks spawned by `run(scope, f, max_s, max_t, s, t)` after `f(s, t)`
returned the range `rS..rE`.  Mirrors the body of `run`:
`ret.start += 1; ret.end = min(ret.end + 1, max_t(s + 1))`, then, if the
range is nonempty, one recursive unit per `t` in the range, at level `s + 1`.
Nothing is spawned unless `s + 1 < max_s`. -/
def spawned (P : SchedParams) (s : Nat) (rS rE : Int) : List Task :=
  if s + 1 < P.max_s then
    let start := rS + 1
    let stop := min (rE + 1) (P.max_t (s + 1))
    if start < stop then intRangeTasks (s + 1) start stop
    else []
  else []

/-- The initial tasks of `iter_s_t`, from the two arms of `rayon::join`:
`(min_s, t)` for `t` in `min_t..max_t(min_s)`, and `(s, min_t)` for `s` in
`min_s + 1..max_s`. -/
def initTasks (P : SchedParams) : List Task :=
  intRangeTasks P.min_s P.min_t (P.max_t P.min_s)
  ++ ((List.range (P.max_s - (P.min_s + 1))).map
    (fun k : Nat => (P.min_s + 1 + k, P.min_t)))

/-- A scheduler state: the pending (spawned, not yet executed) tasks, and the
trace of calls made so far, in the order they completed. -/
structure SchedState where
  pending : List Task
  trace : List Event
  deriving DecidableEq, Repr

/-- One scheduler step: some pending task `(s, t)` fires; `f(s, t)` returns an
arbitrary range `rS..rE`; the call is appended to the trace and the tasks of
`run`'s recursion are spawned. -/
inductive Step (P : SchedParams) : SchedState → SchedState → Prop where
  | fire (pend₁ pend₂ : List Task) (s : Nat) (t rS rE : Int) (tr : List Event) :
      Step P ⟨pend₁ ++ (s, t) :: pend₂, tr⟩
        ⟨pend₁ ++ pend₂ ++ spawned P s rS rE, tr ++ [⟨s, t, rS, rE⟩]⟩

/-- The states reachable by an execution of `iter_s_t`. -/
inductive Reaches (P : SchedParams) : SchedState → Prop where
  | init : Reaches P ⟨initTasks P, []⟩
  | step {σ σ' : SchedState} : Reaches P σ → Step P σ σ' → Reaches P σ'

/-- `f(s, t')` was called at some point of the trace. -/
def called (tr : List Event) (s : Nat) (t : Int) : Prop :=
  ∃ e ∈ tr, e.s = s ∧ e.t = t

/-- The contract of a single return value of `f`, documented at `iter_s_t`:
the returned range starts at `t`, and its end `T` means that `f(s, t')` has
already been computed for every `t' < T` (within the domain, so `t' ≥ min_t`).
`pre` is the trace of calls completed before this one. -/
def ValidStep (P : SchedParams) (pre : List Event) (e : Event) : Prop :=
  e.rS = e.t ∧
    ∀ t' : Int, P.min_t ≤ t' → t' < e.rE → t' = e.t ∨ called pre e.s t'

/-- A trace in which every call's return value satisfies the documented
contract of `f`: for every decomposition of the trace into the calls `pre`
completed before a call `e` and the calls after it, `e` satisfies the
contract with respect to `pre`. -/
def Valid (P : SchedParams) (tr : List Event) : Prop :=
  ∀ pre e post, tr = pre ++ e :: post → ValidStep P pre e

/-- The bidegrees of the calls in a trace. -/
def calls (tr : List Event) : List Task :=
  tr.map (fun e => (e.s, e.t))

/-- How many times the task `x` occurs in a list of tasks. -/
def countTask (l : List Task) (x : Task) : Nat :=
  l.countP (fun y => decide (y = x))

/-! ### Basic lemmas about the model -/

theorem intRangeTasks_mem (s : Nat) (lo hi : Int) (x : Task) :
    x ∈ intRangeTasks s lo hi ↔ x.1 = s ∧ lo ≤ x.2 ∧ x.2 < hi := by
  obtain ⟨a, b⟩ := x
  unfold intRangeTasks
  simp only [List.mem_map, List.mem_range, Prod.mk.injEq]
  constructor
  · rintro ⟨k, hk, rfl, rfl⟩
    exact ⟨rfl, by omega, by omega⟩
  · rintro ⟨rfl, h2, h3⟩
    exact ⟨(b - lo).toNat, by omega, rfl, by omega⟩

theorem intRangeTasks_nodup (s : Nat) (lo hi : Int) :
    (intRangeTasks s lo hi).Nodup := by
  unfold intRangeTasks
  refine (List.nodup_range _).map ?_
  intro a b hab
  have h2 := congrArg Prod.snd hab
  simp only at h2
  omega

theorem spawned_mem (P : SchedParams) (s : Nat) (rS rE : Int) (x : Task) :
    x ∈ spawned P s rS rE ↔
      s + 1 < P.max_s ∧ x.1 = s + 1 ∧ rS + 1 ≤ x.2 ∧
        x.2 < min (rE + 1) (P.max_t (s + 1)) := by
  unfold spawned
  by_cases hs : s + 1 < P.max_s
  · simp only [hs, if_true, true_and]
    by_cases hr : rS + 1 < min (rE + 1) (P.max_t (s + 1))
    · simp only [hr, if_true, intRangeTasks_mem]
    · simp only [hr, if_false, List.not_mem_nil, false_iff]
      rintro ⟨h1, h2, h3⟩
      exact hr (lt_of_le_of_lt h2 h3)
  · simp [hs]

theorem spawned_nodup (P : SchedParams) (s : Nat) (rS rE : Int) :
    (spawned P s rS rE).Nodup := by
  unfold spawned
  by_cases hs : s + 1 < P.max_s
  · simp only [hs, if_true]
    by_cases hr : rS + 1 < min (rE + 1) (P.max_t (s + 1))
    · simp only [hr, if_true]
      exact intRangeTasks_nodup _ _ _
    · simp [hr]
  · simp [hs]

theorem initTasks_mem (P : SchedParams) (x : Task) :
    x ∈ initTasks P ↔
      (x.1 = P.min_s ∧ P.min_t ≤ x.2 ∧ x.2 < P.max_t P.min_s) ∨
      (x.2 = P.min_t ∧ P.min_s < x.1 ∧ x.1 < P.max_s) := by
  obtain ⟨a, b⟩ := x
  unfold initTasks
  simp only [List.mem_append, intRangeTasks_mem, List.mem_map, List.mem_range,
    Prod.mk.injEq]
  constructor
  · rintro (⟨h1, h2, h3⟩ | ⟨k, hk, rfl, rfl⟩)
    · exact Or.inl ⟨h1, h2, h3⟩
    · exact Or.inr ⟨rfl, by omega, by omega⟩
  · rintro (⟨h1, h2, h3⟩ | ⟨h1, h2, h3⟩)
    · exact Or.inl ⟨h1, h2, h3⟩
    · exact Or.inr ⟨a - (P.min_s + 1), by omega, by omega, h1.symm⟩

theorem countTask_nil (x : Task) : countTask [] x = 0 := rfl

theorem countTask_cons (a : Task) (l : List Task) (x : Task) :
    countTask (a :: l) x = countTask l x + if a = x then 1 else 0 := by
  simp [countTask, List.countP_cons]

theorem countTask_append (l₁ l₂ : List Task) (x : Task) :
    countTask (l₁ ++ l₂) x = countTask l₁ x + countTask l₂ x := by
  induction l₁ with
  | nil => simp [countTask_nil, countTask]
  | cons a l ih => simp only [List.cons_append, countTask_cons, ih]; omega

theorem countTask_pos_of_mem {l : List Task} {x : Task} (h : x ∈ l) :
    0 < countTask l x := by
  induction l with
  | nil => cases h
  | cons a l ih =>
    rw [countTask_cons]
    rcases List.mem_cons.1 h with rfl | h'
    · simp
    · have := ih h'
      omega

theorem countTask_eq_zero_of_not_mem {l : List Task} {x : Task} (h : x ∉ l) :
    countTask l x = 0 := by
  induction l with
  | nil => rfl
  | cons a l ih =>
    rw [countTask_cons, if_neg (by rintro rfl; exact h (List.mem_cons_self a l))]
    rw [ih (fun h' => h (List.mem_cons_of_mem a h'))]

theorem countTask_le_one_of_nodup {l : List Task} (h : l.Nodup) (x : Task) :
    countTask l x ≤ 1 := by
  induction l with
  | nil => simp [countTask_nil]
  | cons a l ih =>
    rw [countTask_cons]
    rcases List.nodup_cons.1 h with ⟨ha, hl⟩
    by_cases hax : a = x
    · subst hax
      rw [countTask_eq_zero_of_not_mem ha]
      simp
    · rw [if_neg hax]
      have := ih hl
      omega

theorem calls_append (tr : List Event) (e : Event) :
    calls (tr ++ [e]) = calls tr ++ [(e.s, e.t)] := by
  simp [calls]

theorem mem_calls_iff (tr : List Event) (s : Nat) (t : Int) :
    (s, t) ∈ calls tr ↔ called tr s t := by
  unfold calls called
  rw [List.mem_map]
  constructor
  · rintro ⟨e, he, hh⟩
    exact ⟨e, he, congrArg Prod.fst hh, congrArg Prod.snd hh⟩
  · rintro ⟨e, he, h1, h2⟩
    exact ⟨e, he, by rw [← h1, ← h2]⟩

/-! ### Trace decompositions and validity -/

theorem snoc_cases {α : Type} (pre post tr : List α) (a b : α)
    (h : pre ++ a :: post = tr ++ [b]) :
    (pre = tr ∧ a = b ∧ post = []) ∨
      (∃ post', post = post' ++ [b] ∧ tr = pre ++ a :: post') := by
  rcases List.eq_nil_or_concat post with rfl | ⟨post', c, hpost⟩
  · left
    have h1 : pre ++ [a] = tr ++ [b] := h
    have h2 := List.append_inj' h1 rfl
    have hab : a = b := by
      have := h2.2
      exact List.singleton_injective this
    exact ⟨h2.1, hab, rfl⟩
  · right
    rw [List.concat_eq_append] at hpost
    subst hpost
    have h1 : (pre ++ a :: post') ++ [c] = tr ++ [b] := by
      simpa using h
    have h2 := List.append_inj' h1 rfl
    have hc : c = b := List.singleton_injective h2.2
    exact ⟨post', by rw [hc], h2.1.symm⟩

theorem valid_of_append {P : SchedParams} {l₁ l₂ : List Event}
    (h : Valid P (l₁ ++ l₂)) : Valid P l₁ := by
  intro pre e post hdec
  exact h pre e (post ++ l₂) (by rw [hdec]; simp)

theorem valid_nil (P : SchedParams) : Valid P [] := by
  intro pre e post hdec
  exact absurd hdec (by simp)

theorem valid_snoc {P : SchedParams} {tr : List Event} {e : Event}
    (h1 : Valid P tr) (h2 : ValidStep P tr e) : Valid P (tr ++ [e]) := by
  intro pre e' post hdec
  rcases snoc_cases pre post tr e' e hdec.symm with ⟨rfl, rfl, rfl⟩ | ⟨post', rfl, htr⟩
  · exact h2
  · exact h1 pre e' post' htr

theorem valid_last {P : SchedParams} {tr : List Event} {e : Event}
    (h : Valid P (tr ++ [e])) : ValidStep P tr e :=
  h tr e [] rfl

/-! ### The scheduler invariant -/

/-- Where a task (a pair `(s, t)` that `run` is or will be called on) can come
from: it is within bounds, and it is either a bootstrap task (`s = min_s` or
`t = min_t`) or it was spawned by the recursion after a recorded call at level
`s - 1` whose returned range reached past `t`. -/
def TaskOK (P : SchedParams) (tr : List Event) (x : Task) : Prop :=
  P.min_s ≤ x.1 ∧ P.min_t ≤ x.2 ∧
    (x.1 = P.min_s ∨ x.2 = P.min_t ∨
      ∃ e ∈ tr, e.s + 1 = x.1 ∧ e.rS < x.2 ∧ x.2 ≤ e.rE)

/-- Every recorded call was a legitimate task at the moment it fired: its
provenance refers only to calls recorded strictly before it. -/
def EventsOK (P : SchedParams) (tr : List Event) : Prop :=
  ∀ pre e post, tr = pre ++ e :: post → TaskOK P pre (e.s, e.t)

/-- The inductive invariant of the scheduler: pending tasks and recorded
calls have a provenance, and no bidegree occurs more than once among the
recorded calls plus the pending tasks. -/
def Inv (P : SchedParams) (σ : SchedState) : Prop :=
  (∀ x ∈ σ.pending, TaskOK P σ.trace x) ∧
  EventsOK P σ.trace ∧
  (∀ x : Task, countTask (calls σ.trace) x + countTask σ.pending x ≤ 1)

theorem taskOK_mono {P : SchedParams} {tr : List Event} {x : Task}
    (h : TaskOK P tr x) (l : List Event) : TaskOK P (tr ++ l) x := by
  obtain ⟨h1, h2, h3⟩ := h
  refine ⟨h1, h2, ?_⟩
  rcases h3 with h3 | h3 | ⟨e, he, h4⟩
  · exact Or.inl h3
  · exact Or.inr (Or.inl h3)
  · exact Or.inr (Or.inr ⟨e, List.mem_append_left l he, h4⟩)

/-- If a task at level `s + 1` and internal degree `u` has a recorded parent
call at level `s` (whose range reached past `u`), then under the contract of
`f`, every `t < u` with `min_t ≤ t` has already been called at level `s`. -/
theorem parent_forces_called {P : SchedParams} {tr : List Event}
    (hV : Valid P tr) {s : Nat} {t u : Int} (hmt : P.min_t ≤ t) (htu : t < u)
    {e2 : Event} (he2 : e2 ∈ tr) (hs2 : e2.s = s)
    (hhi : u ≤ e2.rE) : called tr s t := by
  obtain ⟨pre, post, rfl⟩ := List.append_of_mem he2
  have hvs := hV pre e2 post rfl
  have hw := hvs.2 t hmt (by omega)
  rcases hw with h | h
  · exact ⟨e2, by simp, hs2, h.symm⟩
  · obtain ⟨e3, he3, h3s, h3t⟩ := h
    exact ⟨e3, List.mem_append_left _ he3, by rw [h3s, hs2], h3t⟩

theorem inv_init (P : SchedParams) : Inv P ⟨initTasks P, []⟩ := by
  refine ⟨?_, ?_, ?_⟩
  · intro x hx
    rcases (initTasks_mem P x).1 hx with ⟨h1, h2, h3⟩ | ⟨h1, h2, h3⟩
    · exact ⟨le_of_eq h1.symm, h2, Or.inl h1⟩
    · exact ⟨le_of_lt h2, le_of_eq h1.symm, Or.inr (Or.inl h1)⟩
  · intro pre e post hdec
    exact absurd hdec (by simp)
  · intro x
    have h0 : countTask (calls []) x = 0 := rfl
    rw [show (SchedState.mk (initTasks P) []).trace = [] from rfl, h0]
    rw [show (SchedState.mk (initTasks P) []).pending = initTasks P from rfl]
    simp only [Nat.zero_add]
    apply countTask_le_one_of_nodup
    unfold initTasks
    refine List.Nodup.append (intRangeTasks_nodup _ _ _) ?_ ?_
    · refine (List.nodup_range _).map ?_
      intro a b hab
      have h1 := congrArg Prod.fst hab
      simp only at h1
      omega
    · intro x hx hy
      rcases (intRangeTasks_mem _ _ _ x).1 hx with ⟨h1, h2, h3⟩
      obtain ⟨k, hk, rfl⟩ := List.mem_map.1 hy
      simp only at h1
      omega

/-- Key freshness argument: if `(s, t)` has not been called yet, then no task
`(s + 1, u)` with `u > t` can already exist, because its provenance would
force (through the contract of `f`) a prior call at `(s, t)`. -/
theorem fresh_child {P : SchedParams} {tr : List Event} (hV : Valid P tr)
    {s : Nat} {t : Int} (hmins : P.min_s ≤ s) (hmint : P.min_t ≤ t)
    (hzero : countTask (calls tr) (s, t) = 0) {u : Int} (htu : t < u)
    (hok : TaskOK P tr (s + 1, u)) : False := by
  obtain ⟨h1, h2, h3⟩ := hok
  rcases h3 with h | h | ⟨e2, he2, hs2, hlo, hhi⟩
  · simp only at h
    omega
  · simp only at h
    omega
  · have hs2' : e2.s = s := by simp only at hs2; omega
    have hcall := parent_forces_called hV hmint htu he2 hs2' (by simp only at hhi; exact hhi)
    have := countTask_pos_of_mem ((mem_calls_iff tr s t).2 hcall)
    omega

/-- Every recorded call corresponds to a `TaskOK` bidegree. -/
theorem calls_taskOK {P : SchedParams} {tr : List Event}
    (hEv : EventsOK P tr) {a : Nat} {u : Int} (hmem : (a, u) ∈ calls tr) :
    TaskOK P tr (a, u) := by
  obtain ⟨e3, he3, h3⟩ := List.mem_map.1 hmem
  obtain ⟨pre3, post3, rfl⟩ := List.append_of_mem he3
  have h4 := hEv pre3 e3 post3 rfl
  rw [h3] at h4
  exact taskOK_mono h4 _

/-- The invariant is preserved by every scheduler step whose extended trace
satisfies the contract of `f`. -/
theorem inv_step {P : SchedParams} {σ σ' : SchedState} (hstep : Step P σ σ')
    (hInv : Inv P σ) (hV' : Valid P σ'.trace) : Inv P σ' := by
  cases hstep with
  | fire pend₁ pend₂ s t rS rE tr =>
    obtain ⟨hPend, hEv, hCnt⟩ := hInv
    dsimp only at hPend hEv hCnt
    have hV : Valid P tr := valid_of_append hV'
    have hvs : ValidStep P tr ⟨s, t, rS, rE⟩ := valid_last hV'
    have hrS : rS = t := hvs.1
    have hTok : TaskOK P tr (s, t) := hPend (s, t) (by simp)
    have hmins : P.min_s ≤ s := hTok.1
    have hmint : P.min_t ≤ t := hTok.2.1
    have hmem : (s, t) ∈ pend₁ ++ (s, t) :: pend₂ := by simp
    have hzero : countTask (calls tr) (s, t) = 0 := by
      have hp1 := countTask_pos_of_mem hmem
      have hp2 := hCnt (s, t)
      omega
    refine ⟨?_, ?_, ?_⟩
    · intro x hx
      dsimp only at hx
      rcases List.mem_append.1 hx with hx1 | hx3
      · have hx' : x ∈ pend₁ ++ (s, t) :: pend₂ := by
          rcases List.mem_append.1 hx1 with h | h
          · exact List.mem_append.2 (Or.inl h)
          · exact List.mem_append.2 (Or.inr (List.mem_cons_of_mem _ h))
        exact taskOK_mono (hPend x hx') _
      · obtain ⟨a, u⟩ := x
        rcases (spawned_mem P s rS rE (a, u)).1 hx3 with ⟨hsm, hu1, hu2, hu3⟩
        simp only at hu1 hu2 hu3
        have hu4 : u ≤ rE := by
          have := lt_of_lt_of_le hu3 (min_le_left _ _)
          omega
        refine ⟨by simp only; omega, by simp only; omega,
          Or.inr (Or.inr ⟨⟨s, t, rS, rE⟩, by simp, by simp only; omega,
            by simp only; omega, by simp only; omega⟩)⟩
    · intro pre e' post hdec
      dsimp only at hdec
      rcases snoc_cases pre post tr e' ⟨s, t, rS, rE⟩ hdec.symm with
        ⟨rfl, rfl, rfl⟩ | ⟨post', rfl, htr⟩
      · exact hTok
      · exact hEv pre e' post' htr
    · intro x
      obtain ⟨a, u⟩ := x
      dsimp only
      have hold := hCnt (a, u)
      rw [countTask_append, countTask_cons] at hold
      rw [calls_append, countTask_append, countTask_append, countTask_append,
        countTask_cons, countTask_nil]
      dsimp only
      by_cases hx : (a, u) ∈ spawned P s rS rE
      · rcases (spawned_mem P s rS rE (a, u)).1 hx with ⟨hsm, hu1, hu2, hu3⟩
        simp only at hu1 hu2 hu3
        have htu : t < u := by omega
        have hne : ¬ ((s, t) = (a, u)) := by
          intro hh
          have h5 := congrArg Prod.fst hh
          simp only at h5
          omega
        have hc0 : countTask (calls tr) (a, u) = 0 := by
          rcases Nat.eq_zero_or_pos (countTask (calls tr) (a, u)) with h | h
          · exact h
          · obtain ⟨y, hy, hyx⟩ := List.countP_pos_iff.1 h
            have hy2 : y = (a, u) := of_decide_eq_true hyx
            subst hy2
            exact absurd (calls_taskOK hEv hy)
              (fun hok => fresh_child hV hmins hmint hzero htu (hu1 ▸ hok))
        have hp1 : countTask pend₁ (a, u) = 0 := by
          apply countTask_eq_zero_of_not_mem
          intro hmem1
          exact fresh_child hV hmins hmint hzero htu
            (hu1 ▸ hPend (a, u) (List.mem_append.2 (Or.inl hmem1)))
        have hp2 : countTask pend₂ (a, u) = 0 := by
          apply countTask_eq_zero_of_not_mem
          intro hmem2
          exact fresh_child hV hmins hmint hzero htu
            (hu1 ▸ hPend (a, u)
              (List.mem_append.2 (Or.inr (List.mem_cons_of_mem _ hmem2))))
        have hsp : countTask (spawned P s rS rE) (a, u) ≤ 1 :=
          countTask_le_one_of_nodup (spawned_nodup P s rS rE) _
        rw [if_neg hne] at hold ⊢
        rw [hc0, hp1, hp2]
        omega
      · rw [countTask_eq_zero_of_not_mem hx]
        omega

/-- Every reachable state whose trace satisfies the contract of `f`
satisfies the invariant. -/
theorem inv_reaches {P : SchedParams} {σ : SchedState} (h : Reaches P σ) :
    Valid P σ.trace → Inv P σ := by
  induction h with
  | init =>
    intro _
    exact inv_init P
  | step hR hS ih =>
    intro hV'
    cases hS with
    | fire pend₁ pend₂ s t rS rE tr =>
      exact inv_step (Step.fire pend₁ pend₂ s t rS rE tr) (ih (valid_of_append hV')) hV'

/-- Packaging of `Step.fire` convenient for concrete executions. -/
theorem step_glue {P : SchedParams} {pend pend' : List Task} {tr tr' : List Event}
    (pend₁ pend₂ : List Task) (s : Nat) (t rS rE : Int)
    (h1 : pend = pend₁ ++ (s, t) :: pend₂)
    (h2 : pend' = pend₁ ++ pend₂ ++ spawned P s rS rE)
    (h3 : tr' = tr ++ [⟨s, t, rS, rE⟩]) :
    Step P ⟨pend, tr⟩ ⟨pend', tr'⟩ := by
  subst h1
  subst h2
  subst h3
  exact Step.fire pend₁ pend₂ s t rS rE tr

theorem valid_singleton {P : SchedParams} {e : Event}
    (h : ValidStep P [] e) : Valid P [e] := by
  have h2 := valid_snoc (valid_nil P) h
  simpa using h2

/-- Under the hypothesis `min_s < max_s`, every task ever pending and every
call ever recorded has homological degree `< max_s`. -/
theorem reaches_s_bound {P : SchedParams} (hms : P.min_s < P.max_s)
    {σ : SchedState} (h : Reaches P σ) :
    (∀ x ∈ σ.pending, x.1 < P.max_s) ∧ (∀ e ∈ σ.trace, e.s < P.max_s) := by
  induction h with
  | init =>
    constructor
    · intro x hx
      rcases (initTasks_mem P x).1 hx with ⟨h1, h2, h3⟩ | ⟨h1, h2, h3⟩
      · omega
      · omega
    · intro e he
      exact absurd he (List.not_mem_nil e)
  | step hR hS ih =>
    cases hS with
    | fire pend₁ pend₂ s t rS rE tr =>
      obtain ⟨ihp, iht⟩ := ih
      dsimp only at ihp iht
      constructor
      · intro x hx
        dsimp only at hx
        rcases List.mem_append.1 hx with hx1 | hx3
        · rcases List.mem_append.1 hx1 with h | h
          · exact ihp x (List.mem_append.2 (Or.inl h))
          · exact ihp x (List.mem_append.2 (Or.inr (List.mem_cons_of_mem _ h)))
        · rcases (spawned_mem P s rS rE x).1 hx3 with ⟨hsm, hx1, _, _⟩
          omega
      · intro e he
        dsimp only at he
        rcases List.mem_append.1 he with h | h
        · exact iht e h
        · have he2 : e = ⟨s, t, rS, rE⟩ := by simpa using h
          subst he2
          exact ihp (s, t) (by simp)

/-! ### Concrete scheduler parameters used in counterexamples and witnesses -/

/-- Parameters exhibiting the unconditional bootstrap column: three levels,
one internal degree. -/
def Pboot : SchedParams := ⟨0, 0, 3, fun _ => 1⟩

/-- Parameters exhibiting a duplicate call when `f` breaks its contract. -/
def Pdup : SchedParams := ⟨0, 0, 2, fun _ => 3⟩

/-- Degenerate parameters with `max_s ≤ min_s`. -/
def Pdeg : SchedParams := ⟨1, 0, 1, fun _ => 1⟩

/-- Small well-formed parameters used for witnesses. -/
def Pw : SchedParams := ⟨0, 0, 2, fun _ => 2⟩

/-- Parameters whose `max_t` bound at level `1` is not above `min_t`. -/
def Pzero : SchedParams := ⟨0, 0, 2, fun _ => 0⟩

/-- The trace property asserted by claim C1 (spec §8, scheduler dependency
respect, as literally stated): every recorded call `f(s, t)` with
`min_s < s < max_s` is preceded by a recorded call `f(s - 1, t')` whose
returned range covers `t' = t`. -/
def DependencyRespect (P : SchedParams) (tr : List Event) : Prop :=
  ∀ pre e post, tr = pre ++ e :: post →
    P.min_s < e.s → e.s < P.max_s →
      ∃ e2 ∈ pre, e2.s + 1 = e.s ∧ e2.rS ≤ e.t ∧ e.t < e2.rE

/-! ### Claim C1 -/

/-- Claim C1, counterexample: the claim as stated is false.  With
`min_s = 0`, `min_t = 0`, `max_s = 3`, `max_t ≡ 1`, the bootstrap `s`-sweep
makes the call `f(2, 0)` immediately; in the execution firing it first, the
trace satisfies the stated contract of `f` (the returned range `0..0` is
empty) yet no call at level `1` precedes it, violating DependencyRespect. -/
theorem c1_dependency_respect_counterexample :
    ∃ σ : SchedState, Reaches Pboot σ ∧ Valid Pboot σ.trace ∧
      ¬ DependencyRespect Pboot σ.trace := by
  refine ⟨⟨[(0, 0), (1, 0)], [⟨2, 0, 0, 0⟩]⟩, ?_, ?_, ?_⟩
  · refine Reaches.step Reaches.init ?_
    exact step_glue [(0, 0), (1, 0)] [] 2 0 0 0 (by decide) (by decide) (by decide)
  · apply valid_singleton
    refine ⟨rfl, ?_⟩
    intro t' h1 h2
    simp only [Pboot] at h1 h2
    omega
  · intro hDR
    obtain ⟨e2, he2, _⟩ := hDR [] ⟨2, 0, 0, 0⟩ [] rfl (by decide) (by decide)
    exact absurd he2 (List.not_mem_nil e2)

/-- Claim C1, amended: in every execution whose trace satisfies the
documented contract of `f` (each call `f(s, t)` returns a range starting at
`t` whose end `T` means `f(s, t')` has been computed for every `t' < T`),
every call `f(s, t)` with `min_s < s` and `min_t < t` is preceded by calls
`f(s - 1, t')` for every `t'` in `[min_t, t)`.  (The original claim fails
for the bootstrap column `t = min_t`, whose calls are scheduled
unconditionally, and at the upper boundary `t = T` of a returned range.) -/
theorem c1_dependency_respect_amended (P : SchedParams) (σ : SchedState)
    (hR : Reaches P σ) (hV : Valid P σ.trace)
    (pre : List Event) (e : Event) (post : List Event)
    (hdec : σ.trace = pre ++ e :: post)
    (hs : P.min_s < e.s) (ht : P.min_t < e.t)
    (t' : Int) (h1 : P.min_t ≤ t') (h2 : t' < e.t) :
    called pre (e.s - 1) t' := by
  have hInv := inv_reaches hR hV
  have hTok := hInv.2.1 pre e post hdec
  obtain ⟨hb1, hb2, h3⟩ := hTok
  rcases h3 with h | h | ⟨e2, he2, hs2, hlo, hhi⟩
  · simp only at h
    omega
  · simp only at h
    omega
  · simp only at hs2 hlo hhi
    have hVpre : Valid P pre := by
      rw [hdec] at hV
      exact valid_of_append hV
    exact parent_forces_called hVpre h1 h2 he2 (by omega) hhi

/-- Witness for the amended claim C1, on a concrete two-call valid trace of
the parameters `Pw`. -/
theorem c1_dependency_respect_amended_witness :
    Pw.min_s < 1 ∧ Pw.min_t < 1 ∧ called [⟨0, 0, 0, 1⟩] (1 - 1) 0 := by
  have h0 : Reaches Pw ⟨initTasks Pw, []⟩ := Reaches.init
  have h1 : Reaches Pw ⟨[(0, 1), (1, 0), (1, 1)], [⟨0, 0, 0, 1⟩]⟩ :=
    Reaches.step h0
      (step_glue [] [(0, 1), (1, 0)] 0 0 0 1 (by decide) (by decide) (by decide))
  have hR : Reaches Pw ⟨[(0, 1), (1, 0)], [⟨0, 0, 0, 1⟩, ⟨1, 1, 1, 0⟩]⟩ :=
    Reaches.step h1
      (step_glue [(0, 1), (1, 0)] [] 1 1 1 0 (by decide) (by decide) (by decide))
  have hV : Valid Pw [⟨0, 0, 0, 1⟩, ⟨1, 1, 1, 0⟩] := by
    have hv1 : ValidStep Pw [] ⟨0, 0, 0, 1⟩ := by
      refine ⟨rfl, ?_⟩
      intro t' ha hb
      simp only [Pw] at ha hb
      left
      dsimp only
      omega
    have hv2 : ValidStep Pw [⟨0, 0, 0, 1⟩] ⟨1, 1, 1, 0⟩ := by
      refine ⟨rfl, ?_⟩
      intro t' ha hb
      simp only [Pw] at ha hb
      omega
    exact valid_snoc (valid_singleton hv1) hv2
  refine ⟨by decide, by decide, ?_⟩
  exact c1_dependency_respect_amended Pw ⟨[(0, 1), (1, 0)], [⟨0, 0, 0, 1⟩, ⟨1, 1, 1, 0⟩]⟩
    hR hV [⟨0, 0, 0, 1⟩] ⟨1, 1, 1, 0⟩ [] rfl (by decide) (by decide) 0
    (by decide) (by decide)

/-! ### Claim C2 -/

/-- Claim C2, counterexample: without any assumption on the ranges returned
by `f`, a bidegree can be scheduled (and `f` called on it) twice.  With
`min_s = 0`, `min_t = 0`, `max_s = 2`, `max_t ≡ 3`, let `f(0, 0)` return
`0..2` and `f(0, 1)` return `1..2`: both unlock `(1, 2)`, and the run calls
`f(1, 2)` twice, refuting the claim as stated (which quantifies over every
function `f`). -/
theorem c2_scheduled_once_counterexample :
    ∃ σ : SchedState, Reaches Pdup σ ∧
      1 < countTask (calls σ.trace) ((1 : Nat), (2 : Int)) := by
  refine ⟨⟨[(0, 2), (1, 0), (1, 1)],
    [⟨0, 0, 0, 2⟩, ⟨0, 1, 1, 2⟩, ⟨1, 2, 2, 2⟩, ⟨1, 2, 2, 2⟩]⟩, ?_, by decide⟩
  have h0 : Reaches Pdup ⟨initTasks Pdup, []⟩ := Reaches.init
  have h1 : Reaches Pdup
      ⟨[(0, 1), (0, 2), (1, 0), (1, 1), (1, 2)], [⟨0, 0, 0, 2⟩]⟩ :=
    Reaches.step h0 (step_glue [] [(0, 1), (0, 2), (1, 0)] 0 0 0 2
      (by decide) (by decide) (by decide))
  have h2 : Reaches Pdup
      ⟨[(0, 2), (1, 0), (1, 1), (1, 2), (1, 2)], [⟨0, 0, 0, 2⟩, ⟨0, 1, 1, 2⟩]⟩ :=
    Reaches.step h1 (step_glue [] [(0, 2), (1, 0), (1, 1), (1, 2)] 0 1 1 2
      (by decide) (by decide) (by decide))
  have h3 : Reaches Pdup
      ⟨[(0, 2), (1, 0), (1, 1), (1, 2)],
        [⟨0, 0, 0, 2⟩, ⟨0, 1, 1, 2⟩, ⟨1, 2, 2, 2⟩]⟩ :=
    Reaches.step h2 (step_glue [(0, 2), (1, 0), (1, 1)] [(1, 2)] 1 2 2 2
      (by decide) (by decide) (by decide))
  exact Reaches.step h3 (step_glue [(0, 2), (1, 0), (1, 1)] [] 1 2 2 2
    (by decide) (by decide) (by decide))

/-- Claim C2, amended: in every execution whose trace satisfies the
documented contract of `f` (ranges start at the argument `t` and an end `T`
reports that `f(s, t')` has been computed for every `t' < T`), each bidegree
is called at most once. -/
theorem c2_scheduled_once_amended (P : SchedParams) (σ : SchedState)
    (hR : Reaches P σ) (hV : Valid P σ.trace) (x : Task) :
    countTask (calls σ.trace) x ≤ 1 := by
  have h := (inv_reaches hR hV).2.2 x
  omega

/-- Witness for the amended claim C2, on a concrete one-call valid trace. -/
theorem c2_scheduled_once_amended_witness :
    countTask (calls (SchedState.mk [(0, 1), (1, 0), (1, 1)] [⟨0, 0, 0, 1⟩]).trace)
      ((0 : Nat), (0 : Int)) ≤ 1 := by
  have hR : Reaches Pw ⟨[(0, 1), (1, 0), (1, 1)], [⟨0, 0, 0, 1⟩]⟩ := by
    refine Reaches.step Reaches.init ?_
    exact step_glue [] [(0, 1), (1, 0)] 0 0 0 1 (by decide) (by decide) (by decide)
  have hV : Valid Pw [⟨0, 0, 0, 1⟩] := by
    apply valid_singleton
    refine ⟨rfl, ?_⟩
    intro t' ha hb
    simp only [Pw] at ha hb
    left
    dsimp only
    omega
  exact c2_scheduled_once_amended Pw ⟨[(0, 1), (1, 0), (1, 1)], [⟨0, 0, 0, 1⟩]⟩ hR hV (0, 0)

/-! ### Claim C3 -/

/-- Claim C3: after a call `f(s, t)` returns the range `t..T`, and when
`s + 1 < max_s`, the scheduler recurses into exactly the internal degrees
`t + 1 .. min(T + 1, max_t(s + 1))` at homological degree `s + 1`, spawning
one unit of work for each such degree (no duplicates, all at level `s + 1`). -/
theorem c3_unlock_range (P : SchedParams) (s : Nat) (t T : Int)
    (h : s + 1 < P.max_s) :
    (∀ u : Int, (s + 1, u) ∈ spawned P s t T ↔
        t + 1 ≤ u ∧ u < min (T + 1) (P.max_t (s + 1))) ∧
    (∀ x ∈ spawned P s t T, x.1 = s + 1) ∧
    (spawned P s t T).Nodup := by
  refine ⟨?_, ?_, spawned_nodup P s t T⟩
  · intro u
    rw [spawned_mem]
    constructor
    · rintro ⟨_, _, h2, h3⟩
      exact ⟨h2, h3⟩
    · rintro ⟨h2, h3⟩
      exact ⟨h, rfl, h2, h3⟩
  · intro x hx
    exact ((spawned_mem P s t T x).1 hx).2.1

/-- Witness for claim C3 at `Pdup`, `s = 0`, returned range `0..2`. -/
theorem c3_unlock_range_witness :
    0 + 1 < Pdup.max_s ∧
      ((∀ u : Int, ((0 : Nat) + 1, u) ∈ spawned Pdup 0 0 2 ↔
          (0 : Int) + 1 ≤ u ∧ u < min (2 + 1) (Pdup.max_t (0 + 1))) ∧
       (∀ x ∈ spawned Pdup 0 0 2, x.1 = 0 + 1) ∧
       (spawned Pdup 0 0 2).Nodup) :=
  ⟨by decide, c3_unlock_range Pdup 0 0 2 (by decide)⟩

/-! ### Claim C4 -/

/-- Claim C4, counterexample: with the degenerate parameters
`min_s = 1, max_s = 1` (and `max_t ≡ 1`), the `t`-sweep of the bootstrap
still calls `f(1, t)`, so `f` is invoked with homological degree
`≥ max_s`, refuting the final clause of the claim as stated. -/
theorem c4_bootstrap_counterexample :
    ∃ σ : SchedState, Reaches Pdeg σ ∧
      ∃ e ∈ σ.trace, Pdeg.max_s ≤ e.s := by
  refine ⟨⟨[], [⟨1, 0, 0, 0⟩]⟩, ?_, ⟨1, 0, 0, 0⟩, by simp, by decide⟩
  refine Reaches.step Reaches.init ?_
  exact step_glue [] [] 1 0 0 0 (by decide) (by decide) (by decide)

/-- Claim C4, amended: provided `min_s < max_s`, the bootstrap calls are
exactly `(min_s, t)` for `t ∈ [min_t, max_t(min_s))` and `(s, min_t)` for
`s ∈ (min_s, max_s)`, and `f` is never invoked with homological degree
`≥ max_s`.  (Without `min_s < max_s`, the `t`-sweep still calls `f` at level
`min_s ≥ max_s`.) -/
theorem c4_bootstrap_amended (P : SchedParams) (hms : P.min_s < P.max_s) :
    (∀ x : Task, x ∈ initTasks P ↔
      (x.1 = P.min_s ∧ P.min_t ≤ x.2 ∧ x.2 < P.max_t P.min_s) ∨
      (x.2 = P.min_t ∧ P.min_s < x.1 ∧ x.1 < P.max_s)) ∧
    (∀ σ : SchedState, Reaches P σ → ∀ e ∈ σ.trace, e.s < P.max_s) := by
  refine ⟨initTasks_mem P, ?_⟩
  intro σ hR e he
  exact (reaches_s_bound hms hR).2 e he

/-- Witness for the amended claim C4 at the parameters `Pw`. -/
theorem c4_bootstrap_amended_witness :
    Pw.min_s < Pw.max_s ∧
      (((0 : Nat), (1 : Int)) ∈ initTasks Pw ↔
        (((0 : Nat), (1 : Int)).1 = Pw.min_s ∧ Pw.min_t ≤ ((0 : Nat), (1 : Int)).2 ∧
          ((0 : Nat), (1 : Int)).2 < Pw.max_t Pw.min_s) ∨
        (((0 : Nat), (1 : Int)).2 = Pw.min_t ∧ Pw.min_s < ((0 : Nat), (1 : Int)).1 ∧
          ((0 : Nat), (1 : Int)).1 < Pw.max_s)) :=
  ⟨by decide, (c4_bootstrap_amended Pw (by decide)).1 ((0 : Nat), (1 : Int))⟩

/-! ### Claim C5 -/

/-- Claim C5: a call `f(s, t)` returning an empty range (`end ≤ start`)
unlocks no further work at level `s + 1`, and the scheduler keeps executing
normally (the step relation is total on states with pending tasks; the
embedding of `run` is a total function, so no error is raised). -/
theorem c5_empty_range_no_unlock (P : SchedParams) (s : Nat) (rS rE : Int)
    (h : rE ≤ rS) :
    spawned P s rS rE = [] ∧
      (∀ σ : SchedState, σ.pending ≠ [] → ∃ σ' : SchedState, Step P σ σ') := by
  constructor
  · unfold spawned
    by_cases hs : s + 1 < P.max_s
    · simp only [hs, if_true]
      rw [if_neg]
      intro hcon
      have := min_le_left (rE + 1) (P.max_t (s + 1))
      omega
    · simp [hs]
  · intro σ hne
    obtain ⟨pend, tr⟩ := σ
    cases pend with
    | nil => exact absurd rfl hne
    | cons x rest =>
      obtain ⟨s0, t0⟩ := x
      exact ⟨_, Step.fire [] rest s0 t0 0 0 tr⟩

/-- Witness for claim C5 at `Pw` with the empty returned range `0..0`. -/
theorem c5_empty_range_no_unlock_witness :
    (0 : Int) ≤ 0 ∧
      (spawned Pw 0 0 0 = [] ∧
        (∀ σ : SchedState, σ.pending ≠ [] → ∃ σ' : SchedState, Step Pw σ σ')) :=
  ⟨le_refl 0, c5_empty_range_no_unlock Pw 0 0 0 (le_refl 0)⟩

/-! ### Claim C9 -/

/-- Claim C9: the bootstrap `s`-sweep puts `(s, min_t)` among the initial
tasks for every `s` strictly between `min_s` and `max_s`, for every choice
of `max_t` (no check that `min_t < max_t(s)` is made), and there is an
execution in which `f` is called at `(s, min_t)`. -/
theorem c9_bootstrap_column (P : SchedParams) (s : Nat)
    (h1 : P.min_s < s) (h2 : s < P.max_s) :
    (s, P.min_t) ∈ initTasks P ∧
      ∃ σ : SchedState, Reaches P σ ∧ called σ.trace s P.min_t := by
  have hmem : (s, P.min_t) ∈ initTasks P :=
    (initTasks_mem P (s, P.min_t)).2 (Or.inr ⟨rfl, h1, h2⟩)
  refine ⟨hmem, ?_⟩
  obtain ⟨pre, post, hdec⟩ := List.append_of_mem hmem
  refine ⟨⟨pre ++ post ++ spawned P s P.min_t P.min_t,
    [] ++ [⟨s, P.min_t, P.min_t, P.min_t⟩]⟩, ?_, ?_⟩
  · refine Reaches.step Reaches.init ?_
    rw [show (SchedState.mk (initTasks P) [] : SchedState)
        = ⟨pre ++ (s, P.min_t) :: post, []⟩ by rw [hdec]]
    exact Step.fire pre post s P.min_t P.min_t P.min_t []
  · exact ⟨⟨s, P.min_t, P.min_t, P.min_t⟩, by simp, rfl, rfl⟩

/-- Witness for claim C9 at `Pzero`, whose `max_t` bound `0` at `s = 1` is
not above `min_t = 0`: `f` is called at `(1, 0)` anyway. -/
theorem c9_bootstrap_column_witness :
    Pzero.min_s < 1 ∧ (1 : Nat) < Pzero.max_s ∧ Pzero.max_t 1 ≤ Pzero.min_t ∧
      ((1, Pzero.min_t) ∈ initTasks Pzero ∧
        ∃ σ : SchedState, Reaches Pzero σ ∧ called σ.trace 1 Pzero.min_t) :=
  ⟨by decide, by decide, by decide, c9_bootstrap_column Pzero 1 (by decide) (by decide)⟩

/-! ## The `Algebra` trait defaults
(src/ext/crates/algebra/src/algebra/algebra_trait.rs, lines 65-174)

A general element of one degree is an `FpVector` of coefficients, embedded as
a `List Nat`.  The provided trait methods are generic in the implementor's
`multiply_basis_elements`; we embed them as functions parameterized by the
result-state type `R` and the callback `mulBasis` acting on it, so the same
definitions can be run against a call-recording state or against an actual
vector accumulation. -/

/-- The iteration `slice.iter_nonzero()`: the (index, value) pairs of the
non-zero entries of a coefficient vector. -/
def iterNonzero (v : List Nat) : List (Nat × Nat) :=
  v.enum.filter (fun iv => iv.2 != 0)

/-- Default body of `Algebra::multiply_basis_element_by_element`: for each
non-zero entry `(i, v)` of `s`, call `multiply_basis_elements` with running
coefficient `(coeff * v) % p`, threading the mutable `result`. -/
def multiply_basis_element_by_element {R : Type} (p : Nat)
    (mulBasis : R → Nat → Int → Nat → Int → Nat → R)
    (result : R) (coeff : Nat) (r_degree : Int) (r_idx : Nat)
    (s_degree : Int) (s : List Nat) : R :=
  (iterNonzero s).foldl
    (fun res iv => mulBasis res ((coeff * iv.2) % p) r_degree r_idx s_degree iv.1)
    result

/-- Default body of `Algebra::multiply_element_by_basis_element`: for each
non-zero entry `(i, v)` of `r`, call `multiply_basis_elements` with running
coefficient `(coeff * v) % p`. -/
def multiply_element_by_basis_element {R : Type} (p : Nat)
    (mulBasis : R → Nat → Int → Nat → Int → Nat → R)
    (result : R) (coeff : Nat) (r_degree : Int) (r : List Nat)
    (s_degree : Int) (s_idx : Nat) : R :=
  (iterNonzero r).foldl
    (fun res iv => mulBasis res ((coeff * iv.2) % p) r_degree iv.1 s_degree s_idx)
    result

/-- Default body of `Algebra::multiply_element_by_element`: for each non-zero
entry `(i, v)` of `s`, call `multiply_element_by_basis_element` with running
coefficient `(coeff * v) % p`. -/
def multiply_element_by_element {R : Type} (p : Nat)
    (mulBasis : R → Nat → Int → Nat → Int → Nat → R)
    (result : R) (coeff : Nat) (r_degree : Int) (r : List Nat)
    (s_degree : Int) (s : List Nat) : R :=
  (iterNonzero s).foldl
    (fun res iv =>
      multiply_element_by_basis_element p mulBasis res ((coeff * iv.2) % p)
        r_degree r s_degree iv.1)
    result

/-- A record of one call to `multiply_basis_elements`: the coefficient passed
and the two basis elements multiplied. -/
structure MulCall where
  coeff : Nat
  r_degree : Int
  r_idx : Nat
  s_degree : Int
  s_idx : Nat
  deriving DecidableEq, Repr

/-- Result-state instantiation that records every call made to
`multiply_basis_elements`. -/
def logCalls : List MulCall → Nat → Int → Nat → Int → Nat → List MulCall :=
  fun log c rd ri sd si => log ++ [⟨c, rd, ri, sd, si⟩]

/-- Pointwise accumulation `result += c * w (mod p)` on coefficient
functions. -/
def addScaled (p : Nat) (v : Nat → Nat) (c : Nat) (w : Nat → Nat) : Nat → Nat :=
  fun k => (v k + c * w k) % p

/-- A `multiply_basis_elements` implementation that adds `coeff` times a
fixed product vector `M r_degree r_idx s_degree s_idx` into the result —
i.e. one that is linear in `coeff` mod `p`, as hypothesised by claims C6 and
C7. -/
def linearMulBasis (p : Nat) (M : Int → Nat → Int → Nat → Nat → Nat) :
    (Nat → Nat) → Nat → Int → Nat → Int → Nat → (Nat → Nat) :=
  fun res c rd ri sd si => addScaled p res c (M rd ri sd si)

/-- The linear extension `Σ_j s_j · M(r_idx, j)` over the second operand. -/
def linearExtS (M : Int → Nat → Int → Nat → Nat → Nat) (rd : Int) (ri : Nat)
    (sd : Int) (s : List Nat) (k : Nat) : Nat :=
  (s.enum.map (fun jw => jw.2 * M rd ri sd jw.1 k)).sum

/-- The linear extension `Σ_i r_i · M(i, s_idx)` over the first operand. -/
def linearExtR (M : Int → Nat → Int → Nat → Nat → Nat) (rd : Int)
    (r : List Nat) (sd : Int) (si : Nat) (k : Nat) : Nat :=
  (r.enum.map (fun iv => iv.2 * M rd iv.1 sd si k)).sum

/-- The bilinear extension `Σ_j Σ_i r_i · s_j · M(i, j)`. -/
def bilinearSum (M : Int → Nat → Int → Nat → Nat → Nat) (rd : Int)
    (r : List Nat) (sd : Int) (s : List Nat) (k : Nat) : Nat :=
  (s.enum.map (fun jw => jw.2 * linearExtR M rd r sd jw.1 k)).sum

/-! ### Fold lemmas -/

theorem foldl_addScaled {α : Type} (p : Nat) (hp : 0 < p) (c : α → Nat)
    (g : α → Nat → Nat) :
    ∀ (L : List α) (res : Nat → Nat), (∀ k, res k < p) →
      L.foldl (fun acc a => addScaled p acc (c a) (g a)) res
        = fun k => (res k + (L.map (fun a => c a * g a k)).sum) % p := by
  intro L
  induction L with
  | nil =>
    intro res hres
    funext k
    simp [Nat.mod_eq_of_lt (hres k)]
  | cons a L ih =>
    intro res hres
    have hres' : ∀ k, addScaled p res (c a) (g a) k < p := fun k => Nat.mod_lt _ hp
    rw [List.foldl_cons, ih _ hres']
    funext k
    simp only [addScaled, List.map_cons, List.sum_cons]
    rw [Nat.mod_add_mod, Nat.add_assoc]

theorem sum_map_modEq {α : Type} (p : Nat) (f g : α → Nat) :
    ∀ L : List α, (∀ a ∈ L, f a ≡ g a [MOD p]) →
      (L.map f).sum ≡ (L.map g).sum [MOD p] := by
  intro L
  induction L with
  | nil => intro _; rfl
  | cons a L ih =>
    intro h
    simp only [List.map_cons, List.sum_cons]
    exact (h a (List.mem_cons_self a L)).add
      (ih (fun x hx => h x (List.mem_cons_of_mem a hx)))

theorem sum_filter_eq {α : Type} (q : α → Bool) (f : α → Nat) :
    ∀ L : List α, (∀ a ∈ L, q a = false → f a = 0) →
      ((L.filter q).map f).sum = (L.map f).sum := by
  intro L
  induction L with
  | nil => intro _; rfl
  | cons a L ih =>
    intro h
    cases hq : q a with
    | true =>
      rw [List.filter_cons, if_pos hq, List.map_cons, List.sum_cons,
        List.map_cons, List.sum_cons,
        ih (fun x hx hqx => h x (List.mem_cons_of_mem a hx) hqx)]
    | false =>
      rw [List.filter_cons, if_neg (by simp [hq]), List.map_cons, List.sum_cons,
        ih (fun x hx hqx => h x (List.mem_cons_of_mem a hx) hqx),
        h a (List.mem_cons_self a L) hq]
      simp

theorem foldl_single_log {α β : Type} (g : α → β) :
    ∀ (L : List α) (acc : List β),
      L.foldl (fun acc a => acc ++ [g a]) acc = acc ++ L.map g := by
  intro L
  induction L with
  | nil => intro acc; simp
  | cons a L ih =>
    intro acc
    rw [List.foldl_cons, ih]
    simp

theorem foldl_append_log {α β : Type} (g : α → List β) :
    ∀ (L : List α) (acc : List β),
      L.foldl (fun acc a => acc ++ g a) acc = acc ++ L.flatMap g := by
  intro L
  induction L with
  | nil => intro acc; simp
  | cons a L ih =>
    intro acc
    rw [List.foldl_cons, ih]
    simp

theorem foldl_congr_inv {α β : Type} (Q : β → Prop) (f g : β → α → β)
    (hfg : ∀ b a, Q b → f b a = g b a) (hQ : ∀ b a, Q b → Q (g b a)) :
    ∀ (L : List α) (b : β), Q b → L.foldl f b = L.foldl g b := by
  intro L
  induction L with
  | nil => intro b _; rfl
  | cons a L ih =>
    intro b hb
    rw [List.foldl_cons, List.foldl_cons, hfg b a hb]
    exact ih _ (hQ b a hb)

theorem mem_enumFrom_snd {α : Type} :
    ∀ (l : List α) (n : Nat) (x : Nat × α), x ∈ l.enumFrom n → x.2 ∈ l := by
  intro l
  induction l with
  | nil =>
    intro n x h
    exact absurd h (List.not_mem_nil x)
  | cons a l ih =>
    intro n x h
    rw [List.enumFrom_cons] at h
    rcases List.mem_cons.1 h with rfl | h'
    · exact List.mem_cons_self _ _
    · exact List.mem_cons_of_mem _ (ih (n + 1) x h')

theorem mem_enumFrom_of_mem {α : Type} :
    ∀ (l : List α) (n : Nat) (x : α), x ∈ l → ∃ i, (i, x) ∈ l.enumFrom n := by
  intro l
  induction l with
  | nil =>
    intro n x h
    exact absurd h (List.not_mem_nil x)
  | cons a l ih =>
    intro n x h
    rw [List.enumFrom_cons]
    rcases List.mem_cons.1 h with rfl | h'
    · exact ⟨n, List.mem_cons_self _ _⟩
    · obtain ⟨i, hi⟩ := ih (n + 1) x h'
      exact ⟨i, List.mem_cons_of_mem _ hi⟩

theorem iterNonzero_eq_nil_iff (s : List Nat) :
    iterNonzero s = [] ↔ ∀ x ∈ s, x = 0 := by
  unfold iterNonzero
  rw [List.filter_eq_nil_iff]
  constructor
  · intro h x hx
    by_contra hne
    obtain ⟨i, hi⟩ := mem_enumFrom_of_mem s 0 x hx
    exact h (i, x) hi (by simpa using hne)
  · intro h iv hiv
    have h2 := h iv.2 (mem_enumFrom_snd s 0 iv hiv)
    simp [h2]

/-! ### Call logs of the derived multiplications -/

theorem mul_basis_elt_log (p : Nat) (coeff : Nat) (rd : Int) (ri : Nat)
    (sd : Int) (s : List Nat) (log : List MulCall) :
    multiply_basis_element_by_element p logCalls log coeff rd ri sd s
      = log ++ (iterNonzero s).map
          (fun jw => (⟨(coeff * jw.2) % p, rd, ri, sd, jw.1⟩ : MulCall)) :=
  foldl_single_log
    (fun jw : Nat × Nat => (⟨(coeff * jw.2) % p, rd, ri, sd, jw.1⟩ : MulCall))
    (iterNonzero s) log

theorem mul_elt_basis_log (p : Nat) (coeff : Nat) (rd : Int) (r : List Nat)
    (sd : Int) (si : Nat) (log : List MulCall) :
    multiply_element_by_basis_element p logCalls log coeff rd r sd si
      = log ++ (iterNonzero r).map
          (fun iv => (⟨(coeff * iv.2) % p, rd, iv.1, sd, si⟩ : MulCall)) :=
  foldl_single_log
    (fun iv : Nat × Nat => (⟨(coeff * iv.2) % p, rd, iv.1, sd, si⟩ : MulCall))
    (iterNonzero r) log

theorem mul_elt_elt_log (p : Nat) (coeff : Nat) (rd : Int) (r : List Nat)
    (sd : Int) (s : List Nat) (log : List MulCall) :
    multiply_element_by_element p logCalls log coeff rd r sd s
      = log ++ (iterNonzero s).flatMap (fun jw =>
          (iterNonzero r).map (fun iv =>
            (⟨((coeff * jw.2) % p) * iv.2 % p, rd, iv.1, sd, jw.1⟩ : MulCall))) := by
  have hfun : (fun (acc : List MulCall) (jw : Nat × Nat) =>
      multiply_element_by_basis_element p logCalls acc ((coeff * jw.2) % p) rd r sd jw.1)
      = fun acc jw => acc ++ (iterNonzero r).map (fun iv =>
          (⟨((coeff * jw.2) % p) * iv.2 % p, rd, iv.1, sd, jw.1⟩ : MulCall)) := by
    funext acc jw
    exact mul_elt_basis_log p ((coeff * jw.2) % p) rd r sd jw.1 acc
  have h1 : multiply_element_by_element p logCalls log coeff rd r sd s
      = (iterNonzero s).foldl (fun acc jw => acc ++ (iterNonzero r).map (fun iv =>
          (⟨((coeff * jw.2) % p) * iv.2 % p, rd, iv.1, sd, jw.1⟩ : MulCall))) log := by
    unfold multiply_element_by_element
    rw [hfun]
  rw [h1]
  exact foldl_append_log _ (iterNonzero s) log

/-! ### Values of the derived multiplications against a linear
`multiply_basis_elements` -/

theorem mul_basis_elt_linear (p : Nat) (hp : 0 < p)
    (M : Int → Nat → Int → Nat → Nat → Nat) (res : Nat → Nat)
    (hres : ∀ k, res k < p) (coeff : Nat) (rd : Int) (ri : Nat)
    (sd : Int) (s : List Nat) :
    multiply_basis_element_by_element p (linearMulBasis p M) res coeff rd ri sd s
      = fun k => (res k + coeff * linearExtS M rd ri sd s k) % p := by
  have h0 := foldl_addScaled p hp (fun jw : Nat × Nat => (coeff * jw.2) % p)
    (fun jw : Nat × Nat => M rd ri sd jw.1) (iterNonzero s) res hres
  have heq : multiply_basis_element_by_element p (linearMulBasis p M) res coeff rd ri sd s
      = fun k => (res k + ((iterNonzero s).map
          (fun jw => ((coeff * jw.2) % p) * M rd ri sd jw.1 k)).sum) % p := h0
  rw [heq]
  funext k
  have h1 : ((iterNonzero s).map (fun jw => ((coeff * jw.2) % p) * M rd ri sd jw.1 k)).sum
      ≡ ((iterNonzero s).map (fun jw => coeff * jw.2 * M rd ri sd jw.1 k)).sum [MOD p] :=
    sum_map_modEq p _ _ _ (fun a _ => Nat.ModEq.mul_right _ (Nat.mod_modEq _ p))
  have h2 : ((iterNonzero s).map (fun jw => coeff * jw.2 * M rd ri sd jw.1 k)).sum
      = (s.enum.map (fun jw => coeff * jw.2 * M rd ri sd jw.1 k)).sum := by
    unfold iterNonzero
    apply sum_filter_eq
    intro a _ hqa
    have ha2 : a.2 = 0 := by simpa using hqa
    rw [ha2, Nat.mul_zero, Nat.zero_mul]
  have h3 : (s.enum.map (fun jw => coeff * jw.2 * M rd ri sd jw.1 k)).sum
      = coeff * linearExtS M rd ri sd s k := by
    unfold linearExtS
    rw [← List.sum_map_mul_left]
    simp only [mul_assoc]
  exact Nat.ModEq.add_left (res k) (h1.trans (by rw [h2, h3]))

theorem mul_elt_basis_linear (p : Nat) (hp : 0 < p)
    (M : Int → Nat → Int → Nat → Nat → Nat) (res : Nat → Nat)
    (hres : ∀ k, res k < p) (coeff : Nat) (rd : Int) (r : List Nat)
    (sd : Int) (si : Nat) :
    multiply_element_by_basis_element p (linearMulBasis p M) res coeff rd r sd si
      = fun k => (res k + coeff * linearExtR M rd r sd si k) % p := by
  have h0 := foldl_addScaled p hp (fun iv : Nat × Nat => (coeff * iv.2) % p)
    (fun iv : Nat × Nat => M rd iv.1 sd si) (iterNonzero r) res hres
  have heq : multiply_element_by_basis_element p (linearMulBasis p M) res coeff rd r sd si
      = fun k => (res k + ((iterNonzero r).map
          (fun iv => ((coeff * iv.2) % p) * M rd iv.1 sd si k)).sum) % p := h0
  rw [heq]
  funext k
  have h1 : ((iterNonzero r).map (fun iv => ((coeff * iv.2) % p) * M rd iv.1 sd si k)).sum
      ≡ ((iterNonzero r).map (fun iv => coeff * iv.2 * M rd iv.1 sd si k)).sum [MOD p] :=
    sum_map_modEq p _ _ _ (fun a _ => Nat.ModEq.mul_right _ (Nat.mod_modEq _ p))
  have h2 : ((iterNonzero r).map (fun iv => coeff * iv.2 * M rd iv.1 sd si k)).sum
      = (r.enum.map (fun iv => coeff * iv.2 * M rd iv.1 sd si k)).sum := by
    unfold iterNonzero
    apply sum_filter_eq
    intro a _ hqa
    have ha2 : a.2 = 0 := by simpa using hqa
    rw [ha2, Nat.mul_zero, Nat.zero_mul]
  have h3 : (r.enum.map (fun iv => coeff * iv.2 * M rd iv.1 sd si k)).sum
      = coeff * linearExtR M rd r sd si k := by
    unfold linearExtR
    rw [← List.sum_map_mul_left]
    simp only [mul_assoc]
  exact Nat.ModEq.add_left (res k) (h1.trans (by rw [h2, h3]))

theorem mul_elt_elt_linear (p : Nat) (hp : 0 < p)
    (M : Int → Nat → Int → Nat → Nat → Nat) (res : Nat → Nat)
    (hres : ∀ k, res k < p) (coeff : Nat) (rd : Int) (r : List Nat)
    (sd : Int) (s : List Nat) :
    multiply_element_by_element p (linearMulBasis p M) res coeff rd r sd s
      = fun k => (res k + coeff * bilinearSum M rd r sd s k) % p := by
  have hcong := foldl_congr_inv (fun v : Nat → Nat => ∀ k, v k < p)
    (fun acc (jw : Nat × Nat) =>
      multiply_element_by_basis_element p (linearMulBasis p M) acc
        ((coeff * jw.2) % p) rd r sd jw.1)
    (fun acc (jw : Nat × Nat) =>
      addScaled p acc ((coeff * jw.2) % p) (fun k => linearExtR M rd r sd jw.1 k))
    (fun b a hb => mul_elt_basis_linear p hp M b hb ((coeff * a.2) % p) rd r sd a.1)
    (fun b a _ k => Nat.mod_lt _ hp)
    (iterNonzero s) res hres
  have h0 := foldl_addScaled p hp (fun jw : Nat × Nat => (coeff * jw.2) % p)
    (fun jw : Nat × Nat => fun k => linearExtR M rd r sd jw.1 k)
    (iterNonzero s) res hres
  have heq : multiply_element_by_element p (linearMulBasis p M) res coeff rd r sd s
      = fun k => (res k + ((iterNonzero s).map
          (fun jw => ((coeff * jw.2) % p) * linearExtR M rd r sd jw.1 k)).sum) % p :=
    hcong.trans h0
  rw [heq]
  funext k
  have h1 : ((iterNonzero s).map
        (fun jw => ((coeff * jw.2) % p) * linearExtR M rd r sd jw.1 k)).sum
      ≡ ((iterNonzero s).map
        (fun jw => coeff * jw.2 * linearExtR M rd r sd jw.1 k)).sum [MOD p] :=
    sum_map_modEq p _ _ _ (fun a _ => Nat.ModEq.mul_right _ (Nat.mod_modEq _ p))
  have h2 : ((iterNonzero s).map
        (fun jw => coeff * jw.2 * linearExtR M rd r sd jw.1 k)).sum
      = (s.enum.map (fun jw => coeff * jw.2 * linearExtR M rd r sd jw.1 k)).sum := by
    unfold iterNonzero
    apply sum_filter_eq
    intro a _ hqa
    have ha2 : a.2 = 0 := by simpa using hqa
    rw [ha2, Nat.mul_zero, Nat.zero_mul]
  have h3 : (s.enum.map (fun jw => coeff * jw.2 * linearExtR M rd r sd jw.1 k)).sum
      = coeff * bilinearSum M rd r sd s k := by
    unfold bilinearSum
    rw [← List.sum_map_mul_left]
    simp only [mul_assoc]
  exact Nat.ModEq.add_left (res k) (h1.trans (by rw [h2, h3]))

/-! ### Linear combinations of operands -/

/-- The element `c1 * r1 + c2 * r2`, computed entrywise mod `p`. -/
def vecCombo (p c1 c2 : Nat) (r1 r2 : List Nat) : List Nat :=
  List.zipWith (fun a b => (c1 * a + c2 * b) % p) r1 r2

theorem linExt_combo (p c1 c2 : Nat) (X : Nat → Nat) :
    ∀ (r1 r2 : List Nat) (n : Nat), r1.length = r2.length →
      ((List.enumFrom n (vecCombo p c1 c2 r1 r2)).map (fun iv => iv.2 * X iv.1)).sum
        ≡ c1 * ((List.enumFrom n r1).map (fun iv => iv.2 * X iv.1)).sum
          + c2 * ((List.enumFrom n r2).map (fun iv => iv.2 * X iv.1)).sum [MOD p] := by
  intro r1
  induction r1 with
  | nil =>
    intro r2 n hlen
    have h : r2 = [] := List.length_eq_zero.1 hlen.symm
    subst h
    simp only [vecCombo, List.zipWith_nil_right, List.enumFrom_nil, List.map_nil,
      List.sum_nil, Nat.mul_zero, Nat.add_zero]
    rfl
  | cons a r1 ih =>
    intro r2 n hlen
    cases r2 with
    | nil => simp at hlen
    | cons b r2 =>
      have hlen' : r1.length = r2.length := by simpa using hlen
      rw [show vecCombo p c1 c2 (a :: r1) (b :: r2)
          = ((c1 * a + c2 * b) % p) :: vecCombo p c1 c2 r1 r2 from rfl]
      rw [List.enumFrom_cons, List.enumFrom_cons, List.enumFrom_cons]
      simp only [List.map_cons, List.sum_cons]
      have h1 : ((c1 * a + c2 * b) % p) * X n ≡ (c1 * a + c2 * b) * X n [MOD p] :=
        Nat.ModEq.mul_right _ (Nat.mod_modEq _ p)
      have h2 := ih r2 (n + 1) hlen'
      calc ((c1 * a + c2 * b) % p) * X n
            + ((List.enumFrom (n + 1) (vecCombo p c1 c2 r1 r2)).map
                (fun iv => iv.2 * X iv.1)).sum
          ≡ (c1 * a + c2 * b) * X n
            + (c1 * ((List.enumFrom (n + 1) r1).map (fun iv => iv.2 * X iv.1)).sum
               + c2 * ((List.enumFrom (n + 1) r2).map
                  (fun iv => iv.2 * X iv.1)).sum) [MOD p] := h1.add h2
        _ = c1 * (a * X n + ((List.enumFrom (n + 1) r1).map
                (fun iv => iv.2 * X iv.1)).sum)
            + c2 * (b * X n + ((List.enumFrom (n + 1) r2).map
                (fun iv => iv.2 * X iv.1)).sum) := by ring

theorem sum_weighted_combo (p c1 c2 : Nat) (X X1 X2 : Nat → Nat)
    (hX : ∀ j, X j ≡ c1 * X1 j + c2 * X2 j [MOD p]) :
    ∀ L : List (Nat × Nat),
      (L.map (fun jw => jw.2 * X jw.1)).sum
        ≡ c1 * (L.map (fun jw => jw.2 * X1 jw.1)).sum
          + c2 * (L.map (fun jw => jw.2 * X2 jw.1)).sum [MOD p] := by
  intro L
  induction L with
  | nil =>
    simp only [List.map_nil, List.sum_nil, Nat.mul_zero, Nat.add_zero]
    rfl
  | cons a L ih =>
    simp only [List.map_cons, List.sum_cons]
    calc a.2 * X a.1 + (L.map (fun jw => jw.2 * X jw.1)).sum
        ≡ a.2 * (c1 * X1 a.1 + c2 * X2 a.1)
          + (c1 * (L.map (fun jw => jw.2 * X1 jw.1)).sum
             + c2 * (L.map (fun jw => jw.2 * X2 jw.1)).sum) [MOD p] :=
          ((hX a.1).mul_left a.2).add ih
      _ = c1 * (a.2 * X1 a.1 + (L.map (fun jw => jw.2 * X1 jw.1)).sum)
          + c2 * (a.2 * X2 a.1 + (L.map (fun jw => jw.2 * X2 jw.1)).sum) := by ring

theorem bilinearSum_combo (p c1 c2 : Nat) (M : Int → Nat → Int → Nat → Nat → Nat)
    (rd sd : Int) (r1 r2 s : List Nat) (hlen : r1.length = r2.length) (k : Nat) :
    bilinearSum M rd (vecCombo p c1 c2 r1 r2) sd s k
      ≡ c1 * bilinearSum M rd r1 sd s k + c2 * bilinearSum M rd r2 sd s k [MOD p] := by
  unfold bilinearSum
  exact sum_weighted_combo p c1 c2
    (fun j => linearExtR M rd (vecCombo p c1 c2 r1 r2) sd j k)
    (fun j => linearExtR M rd r1 sd j k)
    (fun j => linearExtR M rd r2 sd j k)
    (fun j => linExt_combo p c1 c2 (fun i => M rd i sd j k) r1 r2 0 hlen)
    s.enum

/-! ### Claim C6 -/

/-- Claim C6: each of the three derived multiplications invokes
`multiply_basis_elements` once for each non-zero coefficient entry of the
general operand(s), passing the running coefficient `(coeff * v) % p` (for
general×general, once per pair of non-zero entries, with both factors folded
into the coefficient mod `p`), so that against any `multiply_basis_elements`
that adds `coeff` times a fixed product vector, the accumulated result is
the (bi)linear extension of `multiply_basis_elements`. -/
theorem c6_derived_multiplications (p : Nat) (hp : 0 < p)
    (M : Int → Nat → Int → Nat → Nat → Nat) (res : Nat → Nat)
    (hres : ∀ k, res k < p) (coeff : Nat) (rd sd : Int) (ri si : Nat)
    (r s : List Nat) (log : List MulCall) :
    (multiply_basis_element_by_element p logCalls log coeff rd ri sd s
      = log ++ (iterNonzero s).map
          (fun jw => (⟨(coeff * jw.2) % p, rd, ri, sd, jw.1⟩ : MulCall))) ∧
    (multiply_element_by_basis_element p logCalls log coeff rd r sd si
      = log ++ (iterNonzero r).map
          (fun iv => (⟨(coeff * iv.2) % p, rd, iv.1, sd, si⟩ : MulCall))) ∧
    (multiply_element_by_element p logCalls log coeff rd r sd s
      = log ++ (iterNonzero s).flatMap (fun jw =>
          (iterNonzero r).map (fun iv =>
            (⟨((coeff * jw.2) % p) * iv.2 % p, rd, iv.1, sd, jw.1⟩ : MulCall)))) ∧
    (multiply_basis_element_by_element p (linearMulBasis p M) res coeff rd ri sd s
      = fun k => (res k + coeff * linearExtS M rd ri sd s k) % p) ∧
    (multiply_element_by_basis_element p (linearMulBasis p M) res coeff rd r sd si
      = fun k => (res k + coeff * linearExtR M rd r sd si k) % p) ∧
    (multiply_element_by_element p (linearMulBasis p M) res coeff rd r sd s
      = fun k => (res k + coeff * bilinearSum M rd r sd s k) % p) :=
  ⟨mul_basis_elt_log p coeff rd ri sd s log,
   mul_elt_basis_log p coeff rd r sd si log,
   mul_elt_elt_log p coeff rd r sd s log,
   mul_basis_elt_linear p hp M res hres coeff rd ri sd s,
   mul_elt_basis_linear p hp M res hres coeff rd r sd si,
   mul_elt_elt_linear p hp M res hres coeff rd r sd s⟩

/-- A constant product-vector table used in witnesses. -/
def Mone : Int → Nat → Int → Nat → Nat → Nat := fun _ _ _ _ _ => 1

/-- The zero result vector used in witnesses. -/
def res0 : Nat → Nat := fun _ => 0

theorem res0_lt_three : ∀ k, res0 k < 3 := by
  intro k
  show (0 : Nat) < 3
  decide

/-- Witness for claim C6 at `p = 3`, with the constant table `Mone`,
the zero result vector, `r = [1]`, `s = [2]`. -/
theorem c6_derived_multiplications_witness :
    (0 : Nat) < 3 ∧ (∀ k, res0 k < 3) ∧
      multiply_element_by_element 3 (linearMulBasis 3 Mone) res0 1 0 [1] 0 [2]
        = fun k => (res0 k + 1 * bilinearSum Mone 0 [1] 0 [2] k) % 3 :=
  ⟨by decide, res0_lt_three,
   (c6_derived_multiplications 3 (by decide) Mone res0 res0_lt_three
      1 0 0 0 0 [1] [2] []).2.2.2.2.2⟩

/-! ### Claim C7 -/

/-- Claim C7: against any `multiply_basis_elements` that adds `coeff` times a
fixed product vector into the result (linear in `coeff` mod `p`), the default
`multiply_element_by_element` is linear in its general operand: applied to
`c1 * r1 + c2 * r2` (computed mod `p`) with outer coefficient `1`, it adds
the same value to the result as accumulating `c1` times `r1 * s` and then
`c2` times `r2 * s`, mod `p`. -/
theorem c7_bilinearity (p : Nat) (hp : 0 < p)
    (M : Int → Nat → Int → Nat → Nat → Nat) (res : Nat → Nat)
    (hres : ∀ k, res k < p) (c1 c2 : Nat) (r1 r2 s : List Nat)
    (hlen : r1.length = r2.length) (rd sd : Int) :
    multiply_element_by_element p (linearMulBasis p M) res 1 rd
        (vecCombo p c1 c2 r1 r2) sd s
      = multiply_element_by_element p (linearMulBasis p M)
          (multiply_element_by_element p (linearMulBasis p M) res c1 rd r1 sd s)
          c2 rd r2 sd s := by
  rw [mul_elt_elt_linear p hp M res hres 1 rd _ sd s,
    mul_elt_elt_linear p hp M res hres c1 rd r1 sd s]
  have hres1 : ∀ k, (fun k => (res k + c1 * bilinearSum M rd r1 sd s k) % p) k < p :=
    fun k => Nat.mod_lt _ hp
  rw [mul_elt_elt_linear p hp M _ hres1 c2 rd r2 sd s]
  funext k
  dsimp only
  rw [Nat.mod_add_mod]
  have hB := bilinearSum_combo p c1 c2 M rd sd r1 r2 s hlen k
  have h1 := Nat.ModEq.add_left (res k) hB
  calc (res k + 1 * bilinearSum M rd (vecCombo p c1 c2 r1 r2) sd s k) % p
      = (res k + bilinearSum M rd (vecCombo p c1 c2 r1 r2) sd s k) % p := by
        rw [Nat.one_mul]
    _ = (res k + (c1 * bilinearSum M rd r1 sd s k
          + c2 * bilinearSum M rd r2 sd s k)) % p := h1
    _ = (res k + c1 * bilinearSum M rd r1 sd s k
          + c2 * bilinearSum M rd r2 sd s k) % p := by
        rw [Nat.add_assoc]

/-- Witness for claim C7 at `p = 3`, `c1 = 1`, `c2 = 2`, `r1 = [1]`,
`r2 = [2]`, `s = [1]`. -/
theorem c7_bilinearity_witness :
    (0 : Nat) < 3 ∧ (∀ k, res0 k < 3) ∧ ([1] : List Nat).length = ([2] : List Nat).length ∧
      multiply_element_by_element 3 (linearMulBasis 3 Mone) res0 1 0
          (vecCombo 3 1 2 [1] [2]) 0 [1]
        = multiply_element_by_element 3 (linearMulBasis 3 Mone)
            (multiply_element_by_element 3 (linearMulBasis 3 Mone) res0 1 0 [1] 0 [1])
            2 0 [2] 0 [1] :=
  ⟨by decide, res0_lt_three, by decide,
   c7_bilinearity 3 (by decide) Mone res0 res0_lt_three 1 2 [1] [2] [1]
     (by decide) 0 0⟩

/-! ### Claim C10 -/

/-- Claim C10: if the general operand `s` has no non-zero entries, the
default `multiply_basis_element_by_element` and `multiply_element_by_element`
leave the result unchanged — for any implementation of
`multiply_basis_elements` and any result state — and in particular make no
calls to `multiply_basis_elements` (the recorded call log stays empty). -/
theorem c10_zero_operand {R : Type} (p : Nat)
    (mulBasis : R → Nat → Int → Nat → Int → Nat → R) (result : R)
    (coeff : Nat) (rd sd : Int) (ri : Nat) (r s : List Nat)
    (hs : ∀ x ∈ s, x = 0) :
    multiply_basis_element_by_element p mulBasis result coeff rd ri sd s = result ∧
    multiply_element_by_element p mulBasis result coeff rd r sd s = result ∧
    multiply_basis_element_by_element p logCalls [] coeff rd ri sd s = [] ∧
    multiply_element_by_element p logCalls [] coeff rd r sd s = [] := by
  have h0 : iterNonzero s = [] := (iterNonzero_eq_nil_iff s).2 hs
  refine ⟨?_, ?_, ?_, ?_⟩
  · unfold multiply_basis_element_by_element
    rw [h0]
    rfl
  · unfold multiply_element_by_element
    rw [h0]
    rfl
  · unfold multiply_basis_element_by_element
    rw [h0]
    rfl
  · unfold multiply_element_by_element
    rw [h0]
    rfl

/-- Witness for claim C10 with `s = [0, 0]` against the call-logging state. -/
theorem c10_zero_operand_witness :
    (∀ x ∈ ([0, 0] : List Nat), x = 0) ∧
      multiply_element_by_element 3 logCalls [] 1 0 [1, 2] 0 [0, 0] = [] :=
  ⟨by decide,
   (c10_zero_operand 3 logCalls [] 1 0 0 0 [1, 2] [0, 0] (by decide)).2.2.2⟩

/-! ### Claim C8: `element_to_string` -/

/-- One loop iteration of the default `element_to_string` (the body of the
`for (idx, value) in element.iter_nonzero()` loop): push `"{value} * "` when
`value ≠ 1`, then the basis-element string, then `" + "`, and clear the
`zero` flag.  Strings are embedded as lists of characters. -/
def elt_string_step (basisStr : Int → Nat → List Char) (degree : Int)
    (acc : List Char × Bool) (iv : Nat × Nat) : List Char × Bool :=
  (acc.1 ++ (if iv.2 ≠ 1 then (Nat.repr iv.2).data ++ [' ', '*', ' '] else [])
     ++ basisStr degree iv.1 ++ [' ', '+', ' '], false)

/-- Default body of `Algebra::element_to_string`: fold the loop over the
non-zero entries starting from the empty string with `zero = true`; if the
flag survives, return `"0"`, otherwise pop the trailing `" + "` (three
`String::pop` calls). -/
def element_to_string (basisStr : Int → Nat → List Char) (degree : Int)
    (element : List Nat) : List Char :=
  let r := (iterNonzero element).foldl (elt_string_step basisStr degree) ([], true)
  if r.2 then ['0'] else r.1.dropLast.dropLast.dropLast

/-- The rendering of one non-zero term, per the loop body. -/
def termRender (basisStr : Int → Nat → List Char) (degree : Int)
    (iv : Nat × Nat) : List Char :=
  (if iv.2 ≠ 1 then (Nat.repr iv.2).data ++ [' ', '*', ' '] else [])
    ++ basisStr degree iv.1

/-- Joining a list of renderings with a separator and no trailing separator
(the output format asserted by the specification). -/
def joinSep (sep : List Char) : List (List Char) → List Char
  | [] => []
  | [t] => t
  | t :: ts => t ++ sep ++ joinSep sep ts

theorem elt_string_fold (basisStr : Int → Nat → List Char) (degree : Int) :
    ∀ (L : List (Nat × Nat)) (acc : List Char) (b : Bool),
      L.foldl (elt_string_step basisStr degree) (acc, b)
        = (acc ++ (L.map
            (fun iv => termRender basisStr degree iv ++ [' ', '+', ' '])).flatten,
           b && L.isEmpty) := by
  intro L
  induction L with
  | nil =>
    intro acc b
    simp
  | cons a L ih =>
    intro acc b
    rw [List.foldl_cons]
    rw [show elt_string_step basisStr degree (acc, b) a
        = (acc ++ (termRender basisStr degree a ++ [' ', '+', ' ']), false) from by
      unfold elt_string_step termRender
      simp [List.append_assoc]]
    rw [ih]
    simp [List.append_assoc]

theorem flatten_map_sep (sep : List Char) :
    ∀ ts : List (List Char), ts ≠ [] →
      (ts.map (fun t => t ++ sep)).flatten = joinSep sep ts ++ sep := by
  intro ts
  induction ts with
  | nil =>
    intro h
    exact absurd rfl h
  | cons t ts ih =>
    intro _
    cases ts with
    | nil => simp [joinSep]
    | cons t2 ts2 =>
      rw [List.map_cons, List.flatten_cons, ih (by simp)]
      rw [show joinSep sep (t :: t2 :: ts2) = t ++ sep ++ joinSep sep (t2 :: ts2)
        from rfl]
      simp [List.append_assoc]

theorem dropLast_three {α : Type} (xs : List α) (a b c : α) :
    (xs ++ [a, b, c]).dropLast.dropLast.dropLast = xs := by
  have h1 : xs ++ [a, b, c] = (xs ++ [a, b]) ++ [c] := by simp
  rw [h1, List.dropLast_concat]
  have h2 : xs ++ [a, b] = (xs ++ [a]) ++ [b] := by simp
  rw [h2, List.dropLast_concat, List.dropLast_concat]

/-- Claim C8: the default `element_to_string` returns `"0"` when the element
has no non-zero entries, and otherwise returns the renderings of exactly the
non-zero terms joined by the separator `" + "` with no trailing separator. -/
theorem c8_element_to_string (basisStr : Int → Nat → List Char) (degree : Int)
    (element : List Nat) :
    ((∀ x ∈ element, x = 0) →
      element_to_string basisStr degree element = ['0']) ∧
    ((¬ ∀ x ∈ element, x = 0) →
      element_to_string basisStr degree element
        = joinSep [' ', '+', ' ']
            ((iterNonzero element).map (termRender basisStr degree))) := by
  constructor
  · intro hz
    unfold element_to_string
    rw [(iterNonzero_eq_nil_iff element).2 hz]
    rfl
  · intro hnz
    have hne : iterNonzero element ≠ [] :=
      fun h => hnz ((iterNonzero_eq_nil_iff element).1 h)
    have hE : (iterNonzero element).isEmpty = false := by
      cases hL : iterNonzero element with
      | nil => exact absurd hL hne
      | cons x xs => rfl
    have hmap : (iterNonzero element).map
          (fun iv => termRender basisStr degree iv ++ [' ', '+', ' '])
        = ((iterNonzero element).map (termRender basisStr degree)).map
            (fun t => t ++ [' ', '+', ' ']) := by
      rw [List.map_map]
      rfl
    have hmn : (iterNonzero element).map (termRender basisStr degree) ≠ [] := by
      intro h
      exact hne (List.map_eq_nil_iff.1 h)
    simp only [element_to_string]
    rw [elt_string_fold basisStr degree (iterNonzero element) [] true]
    simp only [hE, Bool.and_false, List.nil_append]
    rw [if_neg (by simp)]
    rw [hmap, flatten_map_sep [' ', '+', ' '] _ hmn, dropLast_three]

/-- A one-character basis rendering used in the witness. -/
def bstr0 : Int → Nat → List Char := fun _ _ => ['x']

/-- Witness for claim C8 on the zero element `[0, 0]` and the element
`[0, 2]`. -/
theorem c8_element_to_string_witness :
    ((∀ x ∈ ([0, 0] : List Nat), x = 0) ∧
      element_to_string bstr0 0 [0, 0] = ['0']) ∧
    ((¬ ∀ x ∈ ([0, 2] : List Nat), x = 0) ∧
      element_to_string bstr0 0 [0, 2]
        = joinSep [' ', '+', ' ']
            ((iterNonzero [0, 2]).map (termRender bstr0 0))) :=
  ⟨⟨by decide, (c8_element_to_string bstr0 0 [0, 0]).1 (by decide)⟩,
   ⟨by decide, (c8_element_to_string bstr0 0 [0, 2]).2 (by decide)⟩⟩

end Sseq
